import Mathlib

set_option linter.all false

/-!
Shallow embedding of the batch-relocation job processor implemented in
`src/backend/backend/routes/moves.py`.

Storage is modelled as an ordered list of association rows (the order is the
"natural return order" of the store); the job ledger is an association list
from job identifiers to job records; the background runner is modelled as a
function producing the full trace of ledger observation points together with
the sequence of effects (writer invocation, progress update, pacing suspension).
Timestamps are abstract `Nat` parameters; an unrecoverable writer error is
modelled by an oracle `failAt : Nat → Option String` giving, per chunk index,
the message of the exception raised there (if any).
-/

/-- Job status values: "queued" | "running" | "completed" | "failed". -/
inductive Status where
  | queued
  | running
  | completed
  | failed
deriving DecidableEq, Repr

/-- The `_Job` TypedDict: the mutable status record stored in `JOBS`. -/
structure Job where
  status : Status
  moved : Nat
  total : Nat
  duplicates : Nat
  startedAt : Nat
  finishedAt : Option Nat
  message : Option String
deriving DecidableEq, Repr

abbrev CompanyId := Int

abbrev CollectionId := Nat

/-- One `CompanyCollectionAssociation` row. -/
structure Assoc where
  company_id : CompanyId
  collection_id : CollectionId
deriving DecidableEq, Repr

/-- The association table, in the natural return order of the store. -/
abbrev Storage := List Assoc

/-- Whether an association row with the given (company, collection) pair exists. -/
def storageHas (s : Storage) (cid : CompanyId) (coll : CollectionId) : Bool :=
  s.any (fun a => a.company_id == cid && a.collection_id == coll)

/-- The `Selection` request model: `ids`, `all`, `excludeIds` (default `[]`). -/
structure Selection where
  ids : Option (List CompanyId)
  all : Option Bool
  excludeIds : List CompanyId
deriving DecidableEq, Repr

/-- The `StartMoveRequest` body. -/
structure StartMoveRequest where
  sourceListId : CollectionId
  targetListId : CollectionId
  selection : Selection
deriving DecidableEq, Repr

/-- An `HTTPException`, carrying the status code and detail message. -/
structure HTTPError where
  status_code : Nat
  detail : String
deriving DecidableEq, Repr

/-- The in-memory `JOBS` mapping. -/
abbrev Ledger := List (String × Job)

/-- The dedup loop of `_resolve_company_ids`: `seen` is the set of ids already
emitted, and each input id is kept only on first occurrence. -/
def dedupFirstAux (seen : List CompanyId) : List CompanyId → List CompanyId
  | [] => []
  | i :: rest =>
    if i ∈ seen then dedupFirstAux seen rest
    else i :: dedupFirstAux (i :: seen) rest

/-- The storage query of the all-flag branch: every `company_id` whose row has
`collection_id == sourceListId`, in storage order. -/
def sourceMembers (storage : Storage) (sourceListId : CollectionId) : List CompanyId :=
  (storage.filter (fun a => a.collection_id == sourceListId)).map (fun a => a.company_id)

/-- `_resolve_company_ids`: explicit-ids mode dedupes preserving first
occurrence; all-flag mode queries storage and filters out `excludeIds`;
otherwise a 400 error is raised. -/
def resolveCompanyIds (storage : Storage) (body : StartMoveRequest) :
    Except HTTPError (List CompanyId) :=
  let sel := body.selection
  match sel.ids with
  | some l => Except.ok (dedupFirstAux [] l)
  | none =>
    if sel.all == some true then
      let all_ids := sourceMembers storage body.sourceListId
      let excl := sel.excludeIds
      Except.ok (all_ids.filter (fun cid => !(excl.contains cid)))
    else
      Except.error ⟨400, "Provide either selection.ids or selection.all=true"⟩

/-- `start_move_job`: rejects equal source/target, resolves the ids, creates
the ledger entry in `queued` state and returns the new ledger, the fresh job
snapshot, and the resolved ids handed to the background task. `jobId` is the
fresh uuid and `now` the submission timestamp. -/
def startMoveJob (storage : Storage) (ledger : Ledger) (body : StartMoveRequest)
    (jobId : String) (now : Nat) :
    Except HTTPError (Ledger × Job × List CompanyId) :=
  if body.sourceListId == body.targetListId then
    Except.error ⟨400, "Source and target lists must differ"⟩
  else
    match resolveCompanyIds storage body with
    | Except.error e => Except.error e
    | Except.ok ids =>
      let job : Job :=
        { status := Status.queued, moved := 0, total := ids.length, duplicates := 0,
          startedAt := now, finishedAt := none, message := none }
      Except.ok ((jobId, job) :: ledger, job, ids)

/-- The state of `JOBS` after a submission: unchanged when the handler raises
before the `JOBS[job_id] = ...` assignment. -/
def startMoveJobLedger (storage : Storage) (ledger : Ledger) (body : StartMoveRequest)
    (jobId : String) (now : Nat) : Ledger :=
  match startMoveJob storage ledger body jobId now with
  | Except.ok (l2, _, _) => l2
  | Except.error _ => ledger

/-- `get_job_status`: look the job up in `JOBS`, 404 when absent. The handler
also returns the (unchanged) ledger, making its effect on `JOBS` explicit. -/
def getJobStatus (ledger : Ledger) (jobId : String) :
    Except HTTPError Job × Ledger :=
  (match List.lookup jobId ledger with
   | some j => Except.ok j
   | none => Except.error ⟨404, "Job not found"⟩,
   ledger)

/-- The insert loop of `_upsert_associations` (`ON CONFLICT DO NOTHING ...
RETURNING`): each candidate row is appended only when no row with the same
(company, collection) pair exists yet, and only appended rows are counted. -/
def upsertLoop : Storage → List Assoc → Storage × Nat
  | storage, [] => (storage, 0)
  | storage, r :: rest =>
    if storageHas storage r.company_id r.collection_id then
      upsertLoop storage rest
    else
      let p := upsertLoop (storage ++ [r]) rest
      (p.1, p.2 + 1)

/-- `_upsert_associations`: 0 on an empty chunk; otherwise one candidate row
per chunk entry, inserted conditionally, returning the number of rows actually
inserted. -/
def upsertAssociations (storage : Storage) (company_ids : List CompanyId)
    (target_list_id : CollectionId) : Storage × Nat :=
  match company_ids with
  | [] => (storage, 0)
  | _ =>
    let rows := company_ids.map (fun cid => Assoc.mk cid target_list_id)
    upsertLoop storage rows

/-- `BATCH = 1` in `_run_move_job`. -/
def BATCH : Nat := 1

/-- `SLEEP = 0.1` in `_run_move_job`, the pacing interval. -/
def SLEEP : Rat := 1 / 10

/-- `company_ids[i:i+BATCH]` chunking of `range(0, len, BATCH)`: chunk size is
`b + 1`. -/
def chunkList (b : Nat) : List CompanyId → List (List CompanyId)
  | [] => []
  | x :: rest => (x :: List.take b rest) :: chunkList b (List.drop b rest)
termination_by l => l.length
decreasing_by
  simp [List.length_drop]
  omega

/-- Observable effects of one pass of the runner loop. -/
inductive RunEvent where
  | writerCall (chunk : List CompanyId) (inserted : Nat) : RunEvent
  | progressUpdate (moved : Nat) (duplicates : Nat) : RunEvent
  | pace (interval : Rat) : RunEvent
deriving DecidableEq, Repr

/-- One loop body of `_run_move_job`: invoke the writer on the chunk, then
add the chunk length to `moved` and the skip count to `duplicates`. Returns
the updated job, the updated storage, and the writer's inserted count. -/
def runStep (target : CollectionId) (job : Job) (storage : Storage)
    (chunk : List CompanyId) : Job × Storage × Nat :=
  let p := upsertAssociations storage chunk target
  ({ job with
      moved := job.moved + chunk.length,
      duplicates := job.duplicates + (chunk.length - p.2) },
   p.1, p.2)

/-- The chunk loop of `_run_move_job`, processing chunks in order starting at
chunk index `i`. `failAt i = some msg` means the writer raises with message
`msg` while processing chunk `i`; the except-handler then marks the job failed.
After the loop ends normally the job is marked completed. `tFin` is the
`time.time()` read at termination. Returns the emitted effects and the list of
ledger observation points (job snapshot and storage after each update). -/
def runLoop (target : CollectionId) (failAt : Nat → Option String) (tFin : Nat) :
    List (List CompanyId) → Nat → Job → Storage → List RunEvent × List (Job × Storage)
  | [], _, job, storage =>
    ([], [({ job with status := Status.completed, finishedAt := some tFin }, storage)])
  | chunk :: rest, i, job, storage =>
    match failAt i with
    | some msg =>
      ([],
       [({ job with
            status := Status.failed
            message := some msg
            finishedAt := some tFin }, storage)])
    | none =>
      let s := runStep target job storage chunk
      let r := runLoop target failAt tFin rest (i + 1) s.1 s.2.1
      (RunEvent.writerCall chunk s.2.2 ::
         RunEvent.progressUpdate s.1.moved s.1.duplicates ::
         RunEvent.pace SLEEP :: r.1,
       (s.1, s.2.1) :: r.2)

/-- `_run_move_job`: flip the job to `running`, then drive the chunk loop over
the `BATCH`-sized chunks of the resolved ids. The first observation point is
the running job before any chunk. -/
def runMoveJob (target : CollectionId) (failAt : Nat → Option String) (tFin : Nat)
    (job0 : Job) (company_ids : List CompanyId) (storage : Storage) :
    List RunEvent × List (Job × Storage) :=
  let job1 := { job0 with status := Status.running }
  let r := runLoop target failAt tFin (chunkList (BATCH - 1) company_ids) 0 job1 storage
  (r.1, (job1, storage) :: r.2)

/-- All ledger observation points of one job: its state at creation followed by
its state after every update made by its runner. -/
def jobTrace (target : CollectionId) (failAt : Nat → Option String) (tFin : Nat)
    (job0 : Job) (company_ids : List CompanyId) (storage : Storage) : List Job :=
  job0 :: (runMoveJob target failAt tFin job0 company_ids storage).2.map Prod.fst

/-- The error oracle of a run with no writer failure. -/
def noFail : Nat → Option String := fun _ => none

/-- Terminal statuses. -/
def Status.isTerminal : Status → Bool
  | Status.completed => true
  | Status.failed => true
  | _ => false

/-- The committed storage after applying the writer to a list of chunks in
sequence order. -/
def applyChunks (target : CollectionId) : Storage → List (List CompanyId) → Storage
  | s, [] => s
  | s, c :: rest => applyChunks target (upsertAssociations s c target).1 rest

/-- The chunks handed to the writer, in emission order. -/
def writtenChunks : List RunEvent → List (List CompanyId)
  | [] => []
  | RunEvent.writerCall c _ :: rest => c :: writtenChunks rest
  | _ :: rest => writtenChunks rest

/-- How many pacing suspensions a run performed. -/
def paceCount (evs : List RunEvent) : Nat :=
  evs.countP (fun e => match e with | RunEvent.pace _ => true | _ => false)

/-- The error oracle of a run whose writer raises exactly once, with message
`msg`, while processing chunk index `k`. -/
def failOnly (k : Nat) (msg : String) : Nat → Option String :=
  fun i => if i = k then some msg else none

/-! ### Properties of the dedup loop -/

theorem dedupFirstAux_congr (l : List CompanyId) :
    ∀ seen1 seen2, (∀ y, y ∈ seen1 ↔ y ∈ seen2) →
      dedupFirstAux seen1 l = dedupFirstAux seen2 l := by
  induction l with
  | nil => intro _ _ _; rfl
  | cons i rest ih =>
    intro seen1 seen2 hmem
    simp only [dedupFirstAux]
    by_cases hi : i ∈ seen1
    · rw [if_pos hi, if_pos ((hmem i).1 hi)]
      exact ih seen1 seen2 hmem
    · rw [if_neg hi, if_neg (fun h => hi ((hmem i).2 h))]
      congr 1
      refine ih (i :: seen1) (i :: seen2) ?_
      intro y
      simp [List.mem_cons, hmem y]

theorem mem_dedupFirstAux (l : List CompanyId) :
    ∀ seen x, x ∈ dedupFirstAux seen l ↔ x ∈ l ∧ x ∉ seen := by
  induction l with
  | nil => simp [dedupFirstAux]
  | cons i rest ih =>
    intro seen x
    simp only [dedupFirstAux]
    by_cases hi : i ∈ seen
    · rw [if_pos hi, ih]
      by_cases hx : x = i
      · subst hx; simp [hi]
      · simp [List.mem_cons, hx]
    · rw [if_neg hi]
      by_cases hx : x = i
      · subst hx; simp [hi]
      · simp [List.mem_cons, ih, hx]

theorem dedupFirstAux_sublist (l : List CompanyId) :
    ∀ seen, List.Sublist (dedupFirstAux seen l) l := by
  induction l with
  | nil => intro _; simp [dedupFirstAux]
  | cons i rest ih =>
    intro seen
    simp only [dedupFirstAux]
    by_cases hi : i ∈ seen
    · rw [if_pos hi]; exact (ih seen).cons i
    · rw [if_neg hi]; exact (ih (i :: seen)).cons₂ i

theorem dedupFirstAux_nodup (l : List CompanyId) :
    ∀ seen, (dedupFirstAux seen l).Nodup := by
  induction l with
  | nil => intro _; simp [dedupFirstAux]
  | cons i rest ih =>
    intro seen
    simp only [dedupFirstAux]
    by_cases hi : i ∈ seen
    · rw [if_pos hi]; exact ih seen
    · rw [if_neg hi]
      refine List.nodup_cons.mpr ⟨fun hmem => ?_, ih (i :: seen)⟩
      exact ((mem_dedupFirstAux rest (i :: seen) i).1 hmem).2 (List.mem_cons_self i seen)

theorem dedupFirstAux_pairwise_indexOf (l : List CompanyId) :
    ∀ seen, (dedupFirstAux seen l).Pairwise (fun a b => l.indexOf a < l.indexOf b) := by
  induction l with
  | nil => intro _; simp [dedupFirstAux]
  | cons i rest ih =>
    intro seen
    simp only [dedupFirstAux]
    by_cases hi : i ∈ seen
    · rw [if_pos hi]
      refine List.Pairwise.imp_of_mem ?_ (ih seen)
      intro a b ha hb hab
      have hai : a ≠ i := fun h =>
        ((mem_dedupFirstAux rest seen a).1 ha).2 (h ▸ hi)
      have hbi : b ≠ i := fun h =>
        ((mem_dedupFirstAux rest seen b).1 hb).2 (h ▸ hi)
      rw [List.indexOf_cons_ne rest (Ne.symm hai), List.indexOf_cons_ne rest (Ne.symm hbi)]
      omega
    · rw [if_neg hi]
      refine List.pairwise_cons.mpr ⟨?_, ?_⟩
      · intro b hb
        have hbi : b ≠ i := fun h =>
          ((mem_dedupFirstAux rest (i :: seen) b).1 hb).2 (h ▸ List.mem_cons_self i seen)
        rw [List.indexOf_cons_self, List.indexOf_cons_ne rest (Ne.symm hbi)]
        omega
      · refine List.Pairwise.imp_of_mem ?_ (ih (i :: seen))
        intro a b ha hb hab
        have hai : a ≠ i := fun h =>
          ((mem_dedupFirstAux rest (i :: seen) a).1 ha).2 (h ▸ List.mem_cons_self i seen)
        have hbi : b ≠ i := fun h =>
          ((mem_dedupFirstAux rest (i :: seen) b).1 hb).2 (h ▸ List.mem_cons_self i seen)
        rw [List.indexOf_cons_ne rest (Ne.symm hai), List.indexOf_cons_ne rest (Ne.symm hbi)]
        omega

/-- C2: for every selection carrying an explicit ids list, the resolver ignores
storage entirely (the result is the same for any two storage states) and
returns the input list deduplicated preserving first-occurrence order: the
result is a duplicate-free sublist of the input, contains exactly the input's
elements, and lists them in order of first occurrence in the input. -/
theorem C2_explicit_ids_resolution (storage storage2 : Storage)
    (body : StartMoveRequest) (l : List CompanyId)
    (h : body.selection.ids = some l) :
    resolveCompanyIds storage body = resolveCompanyIds storage2 body ∧
    resolveCompanyIds storage body = Except.ok (dedupFirstAux [] l) ∧
    (dedupFirstAux [] l).Nodup ∧
    List.Sublist (dedupFirstAux [] l) l ∧
    (∀ x, x ∈ dedupFirstAux [] l ↔ x ∈ l) ∧
    (dedupFirstAux [] l).Pairwise (fun a b => l.indexOf a < l.indexOf b) := by
  refine ⟨?_, ?_, dedupFirstAux_nodup l [], dedupFirstAux_sublist l [], ?_,
    dedupFirstAux_pairwise_indexOf l []⟩
  · simp only [resolveCompanyIds, h]
  · simp only [resolveCompanyIds, h]
  · intro x
    rw [mem_dedupFirstAux]
    simp

/-- C2 witness: the claim instantiated at selection.ids = [5, 3, 5, 7, 3],
including the spec's example output [5, 3, 7]. -/
theorem C2_explicit_ids_resolution_witness :
    (resolveCompanyIds [] ⟨1, 2, ⟨some [5, 3, 5, 7, 3], none, []⟩⟩ =
       resolveCompanyIds [⟨9, 9⟩] ⟨1, 2, ⟨some [5, 3, 5, 7, 3], none, []⟩⟩ ∧
     resolveCompanyIds [] ⟨1, 2, ⟨some [5, 3, 5, 7, 3], none, []⟩⟩ =
       Except.ok (dedupFirstAux [] [5, 3, 5, 7, 3]) ∧
     (dedupFirstAux [] [5, 3, 5, 7, 3]).Nodup ∧
     List.Sublist (dedupFirstAux [] [5, 3, 5, 7, 3]) [5, 3, 5, 7, 3] ∧
     (∀ x, x ∈ dedupFirstAux [] [5, 3, 5, 7, 3] ↔ x ∈ [5, 3, 5, 7, 3]) ∧
     (dedupFirstAux [] [5, 3, 5, 7, 3]).Pairwise
       (fun a b => [5, 3, 5, 7, 3].indexOf a < [5, 3, 5, 7, 3].indexOf b)) ∧
    dedupFirstAux [] [5, 3, 5, 7, 3] = [5, 3, 7] :=
  ⟨C2_explicit_ids_resolution [] [⟨9, 9⟩] ⟨1, 2, ⟨some [5, 3, 5, 7, 3], none, []⟩⟩
      [5, 3, 5, 7, 3] rfl,
   by decide⟩

/-- C5: for every selection with no explicit ids and the all-flag set, the
resolver returns the company ids currently associated with the source
collection, in storage order, minus every identifier in the exclusion set; no
identifier from excludeIds appears in the result whether or not it was a
member. -/
theorem C5_all_flag_resolution (storage : Storage) (body : StartMoveRequest)
    (h1 : body.selection.ids = none) (h2 : body.selection.all = some true) :
    ∃ r, resolveCompanyIds storage body = Except.ok r ∧
      r = (sourceMembers storage body.sourceListId).filter
            (fun cid => !(body.selection.excludeIds.contains cid)) ∧
      List.Sublist r (sourceMembers storage body.sourceListId) ∧
      (∀ x, x ∈ r ↔ x ∈ sourceMembers storage body.sourceListId ∧
        x ∉ body.selection.excludeIds) ∧
      (∀ x ∈ body.selection.excludeIds, x ∉ r) := by
  refine ⟨_, ?_, rfl, List.filter_sublist _, ?_, ?_⟩
  · simp only [resolveCompanyIds, h1, h2]
    rfl
  · intro x
    simp [List.mem_filter]
  · intro x hx hmem
    rw [List.mem_filter] at hmem
    simp at hmem
    exact hmem.2 hx

/-- C5 witness: source collection 1 has members [1, 2, 3] (and 4 is in another
collection); excludeIds = [2, 99] removes the member 2 and never lets the
non-member 99 appear; the result is [1, 3]. -/
theorem C5_all_flag_resolution_witness :
    (∃ r, resolveCompanyIds [⟨1, 1⟩, ⟨2, 1⟩, ⟨3, 1⟩, ⟨4, 2⟩]
            ⟨1, 2, ⟨none, some true, [2, 99]⟩⟩ = Except.ok r ∧
       r = (sourceMembers [⟨1, 1⟩, ⟨2, 1⟩, ⟨3, 1⟩, ⟨4, 2⟩] 1).filter
             (fun cid => !([2, 99].contains cid)) ∧
       List.Sublist r (sourceMembers [⟨1, 1⟩, ⟨2, 1⟩, ⟨3, 1⟩, ⟨4, 2⟩] 1) ∧
       (∀ x, x ∈ r ↔ x ∈ sourceMembers [⟨1, 1⟩, ⟨2, 1⟩, ⟨3, 1⟩, ⟨4, 2⟩] 1 ∧
         x ∉ ([2, 99] : List CompanyId)) ∧
       (∀ x ∈ ([2, 99] : List CompanyId), x ∉ r)) ∧
    resolveCompanyIds [⟨1, 1⟩, ⟨2, 1⟩, ⟨3, 1⟩, ⟨4, 2⟩]
      ⟨1, 2, ⟨none, some true, [2, 99]⟩⟩ = Except.ok [1, 3] :=
  ⟨C5_all_flag_resolution [⟨1, 1⟩, ⟨2, 1⟩, ⟨3, 1⟩, ⟨4, 2⟩]
      ⟨1, 2, ⟨none, some true, [2, 99]⟩⟩ rfl rfl,
   rfl⟩

/-- C10: when a selection provides both an explicit ids list and the all-flag,
the explicit-ids mode wins: the result is the same as with all and excludeIds
absent, every excluded id that occurs in the ids list still appears in the
result (exclusions are never applied in explicit mode), and an empty explicit
ids list is accepted: submission succeeds and creates a job with total = 0. -/
theorem C10_explicit_ids_precedence (storage : Storage) (ledger : Ledger)
    (src tgt : CollectionId) (l excl : List CompanyId) (a : Option Bool)
    (jobId : String) (now : Nat) (hneq : src ≠ tgt) :
    resolveCompanyIds storage ⟨src, tgt, ⟨some l, a, excl⟩⟩ =
      resolveCompanyIds storage ⟨src, tgt, ⟨some l, none, []⟩⟩ ∧
    (∀ x ∈ excl, x ∈ l →
      ∃ r, resolveCompanyIds storage ⟨src, tgt, ⟨some l, a, excl⟩⟩ =
        Except.ok r ∧ x ∈ r) ∧
    (∃ led2 job, startMoveJob storage ledger ⟨src, tgt, ⟨some [], a, excl⟩⟩ jobId now =
        Except.ok (led2, job, []) ∧ job.total = 0 ∧ job.status = Status.queued) := by
  refine ⟨rfl, ?_, ?_⟩
  · intro x hxe hxl
    refine ⟨dedupFirstAux [] l, rfl, ?_⟩
    rw [mem_dedupFirstAux]
    simp [hxl]
  · have hbeq : (src == tgt) = false := by
      simp [hneq]
    refine ⟨(jobId, ⟨Status.queued, 0, 0, 0, now, none, none⟩) :: ledger,
           ⟨Status.queued, 0, 0, 0, now, none, none⟩, ?_, rfl, rfl⟩
    simp [startMoveJob, hbeq]
    rfl

/-- C10 witness: ids = [5, 3] together with all = true and excludeIds = [3]
resolves exactly as ids alone would, keeps the excluded 3, and ids = [] gives
a total-0 job. -/
theorem C10_explicit_ids_precedence_witness :
    (resolveCompanyIds [⟨7, 1⟩] ⟨1, 2, ⟨some [5, 3], some true, [3]⟩⟩ =
       resolveCompanyIds [⟨7, 1⟩] ⟨1, 2, ⟨some [5, 3], none, []⟩⟩ ∧
     (∀ x ∈ ([3] : List CompanyId), x ∈ ([5, 3] : List CompanyId) →
       ∃ r, resolveCompanyIds [⟨7, 1⟩] ⟨1, 2, ⟨some [5, 3], some true, [3]⟩⟩ =
         Except.ok r ∧ x ∈ r) ∧
     (∃ led2 job, startMoveJob [⟨7, 1⟩] [] ⟨1, 2, ⟨some [], some true, [3]⟩⟩ "j" 0 =
         Except.ok (led2, job, []) ∧ job.total = 0 ∧ job.status = Status.queued)) :=
  C10_explicit_ids_precedence [⟨7, 1⟩] [] 1 2 [5, 3] [3] (some true) "j" 0
    (by decide)

/-- C6: submission fails (with a 400 InvalidRequest error) if and only if the
source collection equals the target collection, or the selection specifies
neither an explicit ids list nor the (truthy) all-flag; and whenever it fails
the ledger is left unchanged, i.e. no job entry is created. -/
theorem C6_submission_validation (storage : Storage) (ledger : Ledger)
    (body : StartMoveRequest) (jobId : String) (now : Nat) :
    ((∃ e, startMoveJob storage ledger body jobId now = Except.error e ∧
        e.status_code = 400) ↔
      (body.sourceListId = body.targetListId ∨
        (body.selection.ids = none ∧ body.selection.all ≠ some true))) ∧
    ((∃ e, startMoveJob storage ledger body jobId now = Except.error e) →
      startMoveJobLedger storage ledger body jobId now = ledger) := by
  constructor
  · by_cases hst : body.sourceListId = body.targetListId
    · have hbeq : (body.sourceListId == body.targetListId) = true := by simp [hst]
      simp only [startMoveJob, hbeq, if_true]
      constructor
      · intro _; exact Or.inl hst
      · intro _; exact ⟨⟨400, "Source and target lists must differ"⟩, rfl, rfl⟩
    · have hbeq : (body.sourceListId == body.targetListId) = false := by simp [hst]
      simp only [startMoveJob, hbeq, Bool.false_eq_true, if_false]
      rcases hids : body.selection.ids with _ | l
      · by_cases hall : body.selection.all = some true
        · have : resolveCompanyIds storage body =
              Except.ok ((sourceMembers storage body.sourceListId).filter
                (fun cid => !(body.selection.excludeIds.contains cid))) := by
            simp only [resolveCompanyIds, hids, hall]
            rfl
          rw [this]
          simp [hst, hids, hall]
        · have hallb : (body.selection.all == some true) = false := by
            simp [hall]
          have : resolveCompanyIds storage body =
              Except.error ⟨400, "Provide either selection.ids or selection.all=true"⟩ := by
            simp only [resolveCompanyIds, hids, hallb, Bool.false_eq_true, if_false]
          rw [this]
          simp [hst, hids, hall]
      · have : resolveCompanyIds storage body = Except.ok (dedupFirstAux [] l) := by
          simp only [resolveCompanyIds, hids]
        rw [this]
        simp [hst, hids]
  · intro ⟨e, he⟩
    simp only [startMoveJobLedger, he]

/-- C6 witness: a same-source/target request fails with a 400 error and leaves
the ledger unchanged, via the biconditional applied at concrete inputs. -/
theorem C6_submission_validation_witness :
    ((∃ e, startMoveJob [] [] ⟨1, 1, ⟨some [4], none, []⟩⟩ "j" 0 = Except.error e ∧
        e.status_code = 400) ↔
      ((1 : CollectionId) = 1 ∨
        ((some [4] : Option (List CompanyId)) = none ∧
          (none : Option Bool) ≠ some true))) ∧
    ((∃ e, startMoveJob [] [] ⟨1, 1, ⟨some [4], none, []⟩⟩ "j" 0 = Except.error e) →
      startMoveJobLedger [] [] ⟨1, 1, ⟨some [4], none, []⟩⟩ "j" 0 = []) :=
  C6_submission_validation [] [] ⟨1, 1, ⟨some [4], none, []⟩⟩ "j" 0

/-- C9: polling returns the current job snapshot exactly when the ledger
contains the job id, fails with a 404 NotFound error exactly when it does not,
and never mutates the ledger. -/
theorem C9_poll_contract (ledger : Ledger) (jobId : String) :
    (getJobStatus ledger jobId).2 = ledger ∧
    (∀ j, List.lookup jobId ledger = some j →
      (getJobStatus ledger jobId).1 = Except.ok j) ∧
    (List.lookup jobId ledger = none →
      (getJobStatus ledger jobId).1 = Except.error ⟨404, "Job not found"⟩) := by
  refine ⟨rfl, ?_, ?_⟩
  · intro j hj
    simp only [getJobStatus, hj]
  · intro hj
    simp only [getJobStatus, hj]

/-- C9 witness: with one job "a" in the ledger, polling "a" returns its
snapshot, polling the never-issued "b" returns 404, and both leave the ledger
unchanged. -/
theorem C9_poll_contract_witness :
    ((getJobStatus [("a", ⟨Status.queued, 0, 2, 0, 7, none, none⟩)] "a").1 =
       Except.ok ⟨Status.queued, 0, 2, 0, 7, none, none⟩ ∧
     (getJobStatus [("a", ⟨Status.queued, 0, 2, 0, 7, none, none⟩)] "b").1 =
       Except.error ⟨404, "Job not found"⟩) ∧
    (getJobStatus [("a", ⟨Status.queued, 0, 2, 0, 7, none, none⟩)] "b").2 =
      [("a", ⟨Status.queued, 0, 2, 0, 7, none, none⟩)] :=
  ⟨⟨(C9_poll_contract [("a", ⟨Status.queued, 0, 2, 0, 7, none, none⟩)] "a").2.1
      ⟨Status.queued, 0, 2, 0, 7, none, none⟩ rfl,
    (C9_poll_contract [("a", ⟨Status.queued, 0, 2, 0, 7, none, none⟩)] "b").2.2 rfl⟩,
   (C9_poll_contract [("a", ⟨Status.queued, 0, 2, 0, 7, none, none⟩)] "b").1⟩

/-! ### Properties of the idempotent writer -/

theorem storageHas_iff (s : Storage) (c : CompanyId) (t : CollectionId) :
    storageHas s c t = true ↔ (⟨c, t⟩ : Assoc) ∈ s := by
  simp only [storageHas, List.any_eq_true, Bool.and_eq_true, beq_iff_eq]
  constructor
  · rintro ⟨a, ha, h1, h2⟩
    have haeq : a = ⟨c, t⟩ := by cases a; simp_all
    rwa [haeq] at ha
  · intro h
    exact ⟨⟨c, t⟩, h, rfl, rfl⟩

theorem storageHas_append_one (s : Storage) (r : Assoc) (c : CompanyId)
    (t : CollectionId) :
    storageHas (s ++ [r]) c t =
      (storageHas s c t || (r.company_id == c && r.collection_id == t)) := by
  simp [storageHas, List.any_append]

theorem dedupFirstAux_cons_seen (c : CompanyId) (l : List CompanyId) :
    ∀ seen, dedupFirstAux (c :: seen) l =
      (dedupFirstAux seen l).filter (fun x => !(x == c)) := by
  induction l with
  | nil => intro _; rfl
  | cons i rest ih =>
    intro seen
    simp only [dedupFirstAux]
    by_cases hic : i = c
    · subst hic
      rw [if_pos (List.mem_cons_self i seen)]
      by_cases hi : i ∈ seen
      · rw [if_pos hi]; exact ih seen
      · rw [if_neg hi, List.filter_cons]
        have hii : (!(i == i)) = false := by simp
        rw [hii]
        simp only [Bool.false_eq_true, if_false]
        symm
        apply List.filter_eq_self.mpr
        intro x hx
        have hxm := (mem_dedupFirstAux rest (i :: seen) x).1 hx
        have hxi : x ≠ i := fun h => hxm.2 (h ▸ List.mem_cons_self i seen)
        simp [hxi]
    · have hmem : i ∈ c :: seen ↔ i ∈ seen := by
        simp [List.mem_cons, hic]
      by_cases hi : i ∈ seen
      · rw [if_pos (hmem.mpr hi), if_pos hi]; exact ih seen
      · rw [if_neg (fun h => hi (hmem.mp h)), if_neg hi, List.filter_cons]
        have hicb : (!(i == c)) = true := by simp [hic]
        rw [hicb]
        simp only [if_true]
        congr 1
        rw [← ih (i :: seen)]
        refine dedupFirstAux_congr rest (i :: c :: seen) (c :: i :: seen) ?_
        intro y
        simp only [List.mem_cons]
        tauto

theorem upsertLoop_cons_dup (s : Storage) (r : Assoc) (rest : List Assoc)
    (h : storageHas s r.company_id r.collection_id = true) :
    upsertLoop s (r :: rest) = upsertLoop s rest := by
  simp [upsertLoop, h]

theorem upsertLoop_cons_new (s : Storage) (r : Assoc) (rest : List Assoc)
    (h : storageHas s r.company_id r.collection_id = false) :
    upsertLoop s (r :: rest) =
      ((upsertLoop (s ++ [r]) rest).1, (upsertLoop (s ++ [r]) rest).2 + 1) := by
  simp [upsertLoop, h]

theorem dedupFirstAux_nil_cons (c : CompanyId) (rest : List CompanyId) :
    dedupFirstAux [] (c :: rest) = c :: dedupFirstAux [c] rest := by
  simp [dedupFirstAux]

theorem upsertLoop_count (t : CollectionId) (chunk : List CompanyId) :
    ∀ s : Storage,
      (upsertLoop s (chunk.map (fun cid => Assoc.mk cid t))).2 =
        ((dedupFirstAux [] chunk).filter (fun c => !(storageHas s c t))).length := by
  induction chunk with
  | nil => intro s; rfl
  | cons c rest ih =>
    intro s
    rw [List.map_cons, dedupFirstAux_nil_cons, List.filter_cons]
    by_cases h : storageHas s c t = true
    · rw [upsertLoop_cons_dup s _ _ h, ih s]
      have hc : (!(storageHas s c t)) = false := by simp [h]
      rw [hc]
      simp only [Bool.false_eq_true, if_false]
      rw [dedupFirstAux_cons_seen c rest [], List.filter_filter]
      congr 1
      apply List.filter_congr
      intro x _
      by_cases hx : x = c
      · subst hx; simp [h]
      · simp [hx]
    · have hf : storageHas s c t = false := by
        cases hcase : storageHas s c t
        · rfl
        · exact absurd hcase h
      rw [upsertLoop_cons_new s _ _ hf]
      simp only []
      rw [ih (s ++ [Assoc.mk c t])]
      have hc : (!(storageHas s c t)) = true := by simp [hf]
      rw [hc]
      simp only [if_true, List.length_cons]
      congr 1
      rw [dedupFirstAux_cons_seen c rest [], List.filter_filter]
      congr 1
      apply List.filter_congr
      intro x _
      rw [storageHas_append_one]
      by_cases hx : x = c
      · subst hx; simp
      · have hcx : ¬c = x := fun hcc => hx hcc.symm
        have h1 : (x == c) = false := by simp [hx]
        have h2 : (c == x) = false := by simp [hcx]
        simp [h1, h2]

theorem upsertLoop_growth (rows : List Assoc) :
    ∀ s : Storage, ∃ added, (upsertLoop s rows).1 = s ++ added ∧
      added.length = (upsertLoop s rows).2 := by
  induction rows with
  | nil => intro s; exact ⟨[], by simp [upsertLoop]⟩
  | cons r rest ih =>
    intro s
    simp only [upsertLoop]
    by_cases h : storageHas s r.company_id r.collection_id = true
    · rw [if_pos h]; exact ih s
    · rw [if_neg h]
      obtain ⟨added, h1, h2⟩ := ih (s ++ [r])
      exact ⟨r :: added, by simp [h1], by simp [h2]⟩

theorem mem_upsertLoop (rows : List Assoc) :
    ∀ (s : Storage) (a : Assoc),
      a ∈ (upsertLoop s rows).1 ↔ a ∈ s ∨ a ∈ rows := by
  induction rows with
  | nil => intro s a; simp [upsertLoop]
  | cons r rest ih =>
    intro s a
    simp only [upsertLoop]
    by_cases h : storageHas s r.company_id r.collection_id = true
    · rw [if_pos h, ih s a]
      have hr : r ∈ s := by
        have := (storageHas_iff s r.company_id r.collection_id).1 h
        exact this
      constructor
      · rintro (hs | hrest)
        · exact Or.inl hs
        · exact Or.inr (List.mem_cons_of_mem _ hrest)
      · rintro (hs | hra)
        · exact Or.inl hs
        · rcases List.mem_cons.mp hra with hra | hrest
          · exact Or.inl (hra ▸ hr)
          · exact Or.inr hrest
    · rw [if_neg h, ih (s ++ [r]) a]
      simp [List.mem_append, List.mem_cons]
      tauto

/-- C7: the idempotent writer returns 0 and leaves storage untouched on an
empty chunk; on any chunk it returns exactly the number of candidate
(item, target) pairs that did not already exist and were newly inserted
(first occurrences of ids whose pair was absent), appends exactly that many
rows to storage (silently skipping conflicting candidates, never erroring),
and the resulting storage holds an association for every chunk member. -/
theorem C7_idempotent_writer (storage : Storage) (chunk : List CompanyId)
    (target : CollectionId) :
    upsertAssociations storage [] target = (storage, 0) ∧
    (upsertAssociations storage chunk target).2 =
      ((dedupFirstAux [] chunk).filter (fun c => !(storageHas storage c target))).length ∧
    (∃ added, (upsertAssociations storage chunk target).1 = storage ++ added ∧
      added.length = (upsertAssociations storage chunk target).2) ∧
    (∀ a, a ∈ (upsertAssociations storage chunk target).1 ↔
      a ∈ storage ∨ (a.collection_id = target ∧ a.company_id ∈ chunk)) := by
  refine ⟨rfl, ?_, ?_, ?_⟩
  · cases chunk with
    | nil => rfl
    | cons c rest =>
      simp only [upsertAssociations]
      exact upsertLoop_count target (c :: rest) storage
  · cases chunk with
    | nil => exact ⟨[], by simp [upsertAssociations]⟩
    | cons c rest =>
      simp only [upsertAssociations]
      exact upsertLoop_growth ((c :: rest).map (fun cid => Assoc.mk cid target)) storage
  · intro a
    cases chunk with
    | nil => simp [upsertAssociations]
    | cons c rest =>
      simp only [upsertAssociations]
      rw [mem_upsertLoop]
      have : a ∈ (c :: rest).map (fun cid => Assoc.mk cid target) ↔
          a.collection_id = target ∧ a.company_id ∈ c :: rest := by
        simp only [List.mem_map]
        constructor
        · rintro ⟨cid, hcid, rfl⟩
          exact ⟨rfl, hcid⟩
        · rintro ⟨h1, h2⟩
          exact ⟨a.company_id, h2, by cases a; simp_all⟩
      rw [this]

/-! ### Properties of the batch runner -/

theorem chunkList_zero (l : List CompanyId) :
    chunkList 0 l = l.map (fun x => [x]) := by
  induction l with
  | nil => simp [chunkList]
  | cons x rest ih =>
    rw [chunkList]
    simp [ih]

theorem flatten_chunkList_zero (l : List CompanyId) :
    (chunkList 0 l).flatten = l := by
  rw [chunkList_zero]
  induction l with
  | nil => rfl
  | cons x rest ih => simp [ih]

theorem runLoop_nil (target : CollectionId) (failAt : Nat → Option String)
    (tFin : Nat) (i : Nat) (job : Job) (storage : Storage) :
    runLoop target failAt tFin [] i job storage =
      ([], [({ job with status := Status.completed, finishedAt := some tFin },
        storage)]) := rfl

theorem runLoop_cons_fail (target : CollectionId) (failAt : Nat → Option String)
    (tFin : Nat) (chunk : List CompanyId) (rest : List (List CompanyId)) (i : Nat)
    (job : Job) (storage : Storage) (msg : String) (h : failAt i = some msg) :
    runLoop target failAt tFin (chunk :: rest) i job storage =
      ([], [({ job with
                status := Status.failed
                message := some msg
                finishedAt := some tFin }, storage)]) := by
  simp [runLoop, h]

theorem runLoop_cons_ok (target : CollectionId) (failAt : Nat → Option String)
    (tFin : Nat) (chunk : List CompanyId) (rest : List (List CompanyId)) (i : Nat)
    (job : Job) (storage : Storage) (h : failAt i = none) :
    runLoop target failAt tFin (chunk :: rest) i job storage =
      (RunEvent.writerCall chunk (runStep target job storage chunk).2.2 ::
         RunEvent.progressUpdate (runStep target job storage chunk).1.moved
           (runStep target job storage chunk).1.duplicates ::
         RunEvent.pace SLEEP ::
         (runLoop target failAt tFin rest (i + 1) (runStep target job storage chunk).1
           (runStep target job storage chunk).2.1).1,
       ((runStep target job storage chunk).1, (runStep target job storage chunk).2.1) ::
         (runLoop target failAt tFin rest (i + 1) (runStep target job storage chunk).1
           (runStep target job storage chunk).2.1).2) := by
  simp [runLoop, h]

theorem runStep_job (target : CollectionId) (job : Job) (storage : Storage)
    (chunk : List CompanyId) :
    (runStep target job storage chunk).1 =
      { job with
          moved := job.moved + chunk.length,
          duplicates := job.duplicates +
            (chunk.length - (upsertAssociations storage chunk target).2) } := rfl

theorem runStep_storage (target : CollectionId) (job : Job) (storage : Storage)
    (chunk : List CompanyId) :
    (runStep target job storage chunk).2.1 = (upsertAssociations storage chunk target).1 ∧
    (runStep target job storage chunk).2.2 = (upsertAssociations storage chunk target).2 :=
  ⟨rfl, rfl⟩

theorem upsertAssociations_growth (s : Storage) (c : List CompanyId) (t : CollectionId) :
    ∃ added, (upsertAssociations s c t).1 = s ++ added ∧
      added.length = (upsertAssociations s c t).2 := by
  cases c with
  | nil => exact ⟨[], by simp [upsertAssociations]⟩
  | cons x rest => exact upsertLoop_growth _ s

theorem upsertAssociations_length (s : Storage) (c : List CompanyId) (t : CollectionId) :
    (upsertAssociations s c t).1.length = s.length + (upsertAssociations s c t).2 := by
  obtain ⟨added, h1, h2⟩ := upsertAssociations_growth s c t
  rw [h1, List.length_append, h2]

theorem upsertLoop_count_le (rows : List Assoc) :
    ∀ s : Storage, (upsertLoop s rows).2 ≤ rows.length := by
  induction rows with
  | nil => intro s; simp [upsertLoop]
  | cons r rest ih =>
    intro s
    by_cases h : storageHas s r.company_id r.collection_id = true
    · rw [upsertLoop_cons_dup s r rest h]
      exact Nat.le_trans (ih s) (by simp)
    · have hf : storageHas s r.company_id r.collection_id = false := by
        cases hcase : storageHas s r.company_id r.collection_id
        · rfl
        · exact absurd hcase h
      rw [upsertLoop_cons_new s r rest hf]
      simp only [List.length_cons]
      exact Nat.succ_le_succ (ih (s ++ [r]))

theorem upsertAssociations_count_le (s : Storage) (c : List CompanyId)
    (t : CollectionId) :
    (upsertAssociations s c t).2 ≤ c.length := by
  cases c with
  | nil => simp [upsertAssociations]
  | cons x rest =>
    have := upsertLoop_count_le ((x :: rest).map (fun cid => Assoc.mk cid t)) s
    simpa using this

theorem storageHas_upsert (s : Storage) (c : List CompanyId) (t : CollectionId)
    (x : CompanyId) :
    storageHas (upsertAssociations s c t).1 x t = true ↔
      storageHas s x t = true ∨ x ∈ c := by
  cases c with
  | nil => simp [upsertAssociations]
  | cons y rest =>
    simp only [upsertAssociations]
    rw [storageHas_iff, mem_upsertLoop, ← storageHas_iff]
    constructor
    · rintro (h | h)
      · exact Or.inl h
      · right
        obtain ⟨cid, hcid, heq⟩ := List.mem_map.mp h
        cases heq
        exact hcid
    · rintro (h | h)
      · exact Or.inl h
      · exact Or.inr (List.mem_map.mpr ⟨x, h, rfl⟩)

theorem runLoop_inv (target : CollectionId) (failAt : Nat → Option String)
    (tFin : Nat) :
    ∀ (chunks : List (List CompanyId)) (i : Nat) (job : Job) (storage : Storage),
      job.duplicates ≤ job.moved →
      job.moved + chunks.flatten.length ≤ job.total →
      ∀ p ∈ (runLoop target failAt tFin chunks i job storage).2,
        p.1.moved ≤ p.1.total ∧ p.1.duplicates ≤ p.1.moved ∧ p.1.total = job.total ∧
        job.moved ≤ p.1.moved ∧ job.duplicates ≤ p.1.duplicates := by
  intro chunks
  induction chunks with
  | nil =>
    intro i job storage hdm hmt p hp
    rw [runLoop_nil] at hp
    simp only [List.mem_singleton] at hp
    subst hp
    refine ⟨?_, hdm, rfl, Nat.le_refl _, Nat.le_refl _⟩
    simp only [List.flatten_nil, List.length_nil, Nat.add_zero] at hmt
    exact hmt
  | cons chunk rest ih =>
    intro i job storage hdm hmt p hp
    have hmt2 : job.moved + chunk.length + (List.map List.length rest).sum ≤ job.total := by
      simp at hmt
      omega
    cases hfail : failAt i with
    | some msg =>
      rw [runLoop_cons_fail target failAt tFin chunk rest i job storage msg hfail] at hp
      simp only [List.mem_singleton] at hp
      subst hp
      refine ⟨?_, hdm, rfl, Nat.le_refl _, Nat.le_refl _⟩
      show job.moved ≤ job.total
      omega
    | none =>
      rw [runLoop_cons_ok target failAt tFin chunk rest i job storage hfail] at hp
      rw [List.mem_cons] at hp
      have hins := upsertAssociations_count_le storage chunk target
      rcases hp with hp | hp
      · subst hp
        rw [runStep_job]
        refine ⟨?_, ?_, rfl, ?_, ?_⟩ <;> simp <;> omega
      · have h1 : (runStep target job storage chunk).1.duplicates ≤
            (runStep target job storage chunk).1.moved := by
          rw [runStep_job]; simp; omega
        have h2 : (runStep target job storage chunk).1.moved + rest.flatten.length ≤
            (runStep target job storage chunk).1.total := by
          rw [runStep_job]; simp; omega
        have hrec := ih (i + 1) (runStep target job storage chunk).1
          (runStep target job storage chunk).2.1 h1 h2 p hp
        rw [runStep_job] at hrec
        simp at hrec
        refine ⟨hrec.1, hrec.2.1, hrec.2.2.1, ?_, ?_⟩ <;> omega

theorem runLoop_chain (target : CollectionId) (failAt : Nat → Option String)
    (tFin : Nat) :
    ∀ (chunks : List (List CompanyId)) (i : Nat) (job : Job) (storage : Storage),
      List.Chain' (fun a b => a.moved ≤ b.moved ∧ a.duplicates ≤ b.duplicates)
        (job :: (runLoop target failAt tFin chunks i job storage).2.map Prod.fst) := by
  intro chunks
  induction chunks with
  | nil =>
    intro i job storage
    rw [runLoop_nil]
    simp only [List.map_cons, List.map_nil]
    exact List.chain'_cons.mpr ⟨⟨Nat.le_refl _, Nat.le_refl _⟩, List.chain'_singleton _⟩
  | cons chunk rest ih =>
    intro i job storage
    cases hfail : failAt i with
    | some msg =>
      rw [runLoop_cons_fail target failAt tFin chunk rest i job storage msg hfail]
      simp only [List.map_cons, List.map_nil]
      exact List.chain'_cons.mpr ⟨⟨Nat.le_refl _, Nat.le_refl _⟩, List.chain'_singleton _⟩
    | none =>
      rw [runLoop_cons_ok target failAt tFin chunk rest i job storage hfail]
      simp only [List.map_cons]
      refine List.chain'_cons.mpr ⟨?_, ih (i + 1) _ _⟩
      rw [runStep_job]
      exact ⟨by simp, by simp⟩

theorem runLoop_terminal (target : CollectionId) (failAt : Nat → Option String)
    (tFin : Nat) :
    ∀ (chunks : List (List CompanyId)) (i : Nat) (job : Job) (storage : Storage),
      job.status = Status.running → job.finishedAt = none →
      ∃ front last,
        (runLoop target failAt tFin chunks i job storage).2.map Prod.fst =
          front ++ [last] ∧
        (∀ j ∈ front, j.status = Status.running ∧ j.finishedAt = none) ∧
        (last.status = Status.completed ∨ last.status = Status.failed) ∧
        last.finishedAt = some tFin := by
  intro chunks
  induction chunks with
  | nil =>
    intro i job storage hst hfin
    rw [runLoop_nil]
    exact ⟨[], { job with status := Status.completed, finishedAt := some tFin },
      by simp, by simp, Or.inl rfl, rfl⟩
  | cons chunk rest ih =>
    intro i job storage hst hfin
    cases hfail : failAt i with
    | some msg =>
      rw [runLoop_cons_fail target failAt tFin chunk rest i job storage msg hfail]
      exact ⟨[], { job with
                    status := Status.failed
                    message := some msg
                    finishedAt := some tFin },
        by simp, by simp, Or.inr rfl, rfl⟩
    | none =>
      rw [runLoop_cons_ok target failAt tFin chunk rest i job storage hfail]
      have h1 : (runStep target job storage chunk).1.status = Status.running := by
        rw [runStep_job]; exact hst
      have h2 : (runStep target job storage chunk).1.finishedAt = none := by
        rw [runStep_job]; exact hfin
      obtain ⟨front, last, heq, hfront, hlast, hlfin⟩ :=
        ih (i + 1) (runStep target job storage chunk).1
          (runStep target job storage chunk).2.1 h1 h2
      refine ⟨(runStep target job storage chunk).1 :: front, last, ?_, ?_, hlast, hlfin⟩
      · simp only [List.map_cons, heq, List.cons_append]
      · intro j hj
        rcases List.mem_cons.mp hj with hj | hj
        · subst hj; exact ⟨h1, h2⟩
        · exact hfront j hj

theorem runLoop_noFail (target : CollectionId) (tFin : Nat) :
    ∀ (chunks : List (List CompanyId)) (i : Nat) (job : Job) (storage : Storage),
      ∃ front fj,
        (runLoop target noFail tFin chunks i job storage).2 =
          front ++ [(fj, applyChunks target storage chunks)] ∧
        fj.status = Status.completed ∧
        fj.finishedAt = some tFin ∧
        fj.total = job.total ∧
        fj.startedAt = job.startedAt ∧
        fj.moved = job.moved + chunks.flatten.length ∧
        fj.duplicates = job.duplicates + (chunks.flatten.length -
          ((applyChunks target storage chunks).length - storage.length)) ∧
        storage.length ≤ (applyChunks target storage chunks).length ∧
        (applyChunks target storage chunks).length - storage.length ≤
          chunks.flatten.length := by
  intro chunks
  induction chunks with
  | nil =>
    intro i job storage
    rw [runLoop_nil]
    exact ⟨[], { job with status := Status.completed, finishedAt := some tFin },
      rfl, rfl, rfl, rfl, rfl, by simp [applyChunks], by simp [applyChunks],
      Nat.le_refl _, by simp [applyChunks]⟩
  | cons chunk rest ih =>
    intro i job storage
    rw [runLoop_cons_ok target noFail tFin chunk rest i job storage rfl]
    obtain ⟨front, fj, heq, h1, h2, h3, h4, h5, h6, h7, h8⟩ :=
      ih (i + 1) (runStep target job storage chunk).1
        (runStep target job storage chunk).2.1
    have hs21 : (runStep target job storage chunk).2.1 =
        (upsertAssociations storage chunk target).1 := rfl
    rw [hs21] at heq h6 h7 h8
    have hm : (runStep target job storage chunk).1.moved =
        job.moved + chunk.length := rfl
    have hd : (runStep target job storage chunk).1.duplicates =
        job.duplicates + (chunk.length - (upsertAssociations storage chunk target).2) := rfl
    have ht : (runStep target job storage chunk).1.total = job.total := rfl
    have hsa : (runStep target job storage chunk).1.startedAt = job.startedAt := rfl
    have hins := upsertAssociations_count_le storage chunk target
    have hlen := upsertAssociations_length storage chunk target
    have happ : applyChunks target storage (chunk :: rest) =
        applyChunks target (upsertAssociations storage chunk target).1 rest := rfl
    refine ⟨((runStep target job storage chunk).1,
             (runStep target job storage chunk).2.1) :: front, fj, ?_, h1, h2, ?_, ?_,
           ?_, ?_, ?_, ?_⟩
    · rw [happ, List.cons_append, ← heq]
      rfl
    · rw [h3, ht]
    · rw [h4, hsa]
    · rw [h5, hm]
      simp only [List.flatten_cons, List.length_append]
      omega
    · rw [happ, h6, hd]
      simp only [List.flatten_cons, List.length_append]
      omega
    · rw [happ]
      omega
    · rw [happ]
      simp only [List.flatten_cons, List.length_append]
      omega

theorem runLoop_noFail_events (target : CollectionId) (tFin : Nat) :
    ∀ (chunks : List (List CompanyId)) (i : Nat) (job : Job) (storage : Storage),
      writtenChunks (runLoop target noFail tFin chunks i job storage).1 = chunks ∧
      paceCount (runLoop target noFail tFin chunks i job storage).1 = chunks.length := by
  intro chunks
  induction chunks with
  | nil =>
    intro i job storage
    rw [runLoop_nil]
    exact ⟨rfl, rfl⟩
  | cons chunk rest ih =>
    intro i job storage
    rw [runLoop_cons_ok target noFail tFin chunk rest i job storage rfl]
    obtain ⟨ha, hb⟩ := ih (i + 1) (runStep target job storage chunk).1
      (runStep target job storage chunk).2.1
    constructor
    · simp only [writtenChunks, ha]
    · simp [paceCount, List.countP_cons] at hb ⊢
      omega

theorem storageHas_applyChunks_mono (target : CollectionId) :
    ∀ (chunks : List (List CompanyId)) (s : Storage) (x : CompanyId),
      storageHas s x target = true →
      storageHas (applyChunks target s chunks) x target = true := by
  intro chunks
  induction chunks with
  | nil => intro s x h; exact h
  | cons c rest ih =>
    intro s x h
    exact ih (upsertAssociations s c target).1 x
      ((storageHas_upsert s c target x).mpr (Or.inl h))

theorem storageHas_applyChunks_mem (target : CollectionId) :
    ∀ (chunks : List (List CompanyId)) (s : Storage) (x : CompanyId),
      (∃ c ∈ chunks, x ∈ c) →
      storageHas (applyChunks target s chunks) x target = true := by
  intro chunks
  induction chunks with
  | nil => rintro s x ⟨c, hc, _⟩; exact absurd hc (List.not_mem_nil c)
  | cons c0 rest ih =>
    rintro s x ⟨c, hc, hxc⟩
    rcases List.mem_cons.mp hc with hc | hc
    · subst hc
      exact storageHas_applyChunks_mono target rest _ x
        ((storageHas_upsert s c target x).mpr (Or.inr hxc))
    · exact ih _ x ⟨c, hc, hxc⟩

theorem runLoop_failAt (target : CollectionId) (tFin k : Nat) (msg : String) :
    ∀ (chunks : List (List CompanyId)) (i : Nat) (job : Job) (storage : Storage),
      i ≤ k → k < i + chunks.length →
      ∃ front fj,
        (runLoop target (failOnly k msg) tFin chunks i job storage).2 =
          front ++ [(fj, applyChunks target storage (chunks.take (k - i)))] ∧
        front.length = k - i ∧
        fj.status = Status.failed ∧
        fj.message = some msg ∧
        fj.finishedAt = some tFin ∧
        fj.total = job.total ∧
        fj.startedAt = job.startedAt ∧
        fj.moved = job.moved + (chunks.take (k - i)).flatten.length := by
  intro chunks
  induction chunks with
  | nil =>
    intro i job storage hik hk
    simp only [List.length_nil] at hk
    omega
  | cons chunk rest ih =>
    intro i job storage hik hk
    by_cases hieq : i = k
    · subst hieq
      have hfail : failOnly i msg i = some msg := by simp [failOnly]
      rw [runLoop_cons_fail target (failOnly i msg) tFin chunk rest i job storage msg hfail]
      refine ⟨[], { job with
                      status := Status.failed
                      message := some msg
                      finishedAt := some tFin }, ?_, ?_, rfl, rfl, rfl, rfl, rfl, ?_⟩
      · simp [Nat.sub_self, applyChunks]
      · simp [Nat.sub_self]
      · simp [Nat.sub_self]
    · have hlt : i < k := Nat.lt_of_le_of_ne hik hieq
      have hnofail : failOnly k msg i = none := by simp [failOnly, hieq]
      rw [runLoop_cons_ok target (failOnly k msg) tFin chunk rest i job storage hnofail]
      obtain ⟨front, fj, heq, hfl, h1, h2, h3, h4, h5, h6⟩ :=
        ih (i + 1) (runStep target job storage chunk).1
          (runStep target job storage chunk).2.1 hlt (by simp at hk ⊢; omega)
      have hs21 : (runStep target job storage chunk).2.1 =
          (upsertAssociations storage chunk target).1 := rfl
      rw [hs21] at heq
      have htake : (chunk :: rest).take (k - i) = chunk :: rest.take (k - i - 1) := by
        cases hki2 : k - i with
        | zero => exact absurd hki2 (by omega)
        | succ n =>
          rw [List.take_succ_cons]
          congr 2
      have hki : k - (i + 1) = k - i - 1 := by omega
      rw [hki] at heq h6
      refine ⟨((runStep target job storage chunk).1,
               (runStep target job storage chunk).2.1) :: front, fj, ?_, ?_, h1, h2, h3,
             ?_, ?_, ?_⟩
      · rw [htake]
        have happ : applyChunks target storage (chunk :: rest.take (k - i - 1)) =
            applyChunks target (upsertAssociations storage chunk target).1
              (rest.take (k - i - 1)) := rfl
        rw [happ, List.cons_append, ← heq]
        rfl
      · simp only [List.length_cons, hfl]
        omega
      · rw [h4]
        rfl
      · rw [h5]
        rfl
      · rw [h6, htake]
        have hm : (runStep target job storage chunk).1.moved =
            job.moved + chunk.length := rfl
        rw [hm]
        simp only [List.flatten_cons, List.length_append]
        omega

theorem startMoveJob_ok_inv (storage : Storage) (ledger : Ledger)
    (body : StartMoveRequest) (jobId : String) (now : Nat) (led2 : Ledger)
    (job0 : Job) (ids : List CompanyId)
    (h : startMoveJob storage ledger body jobId now = Except.ok (led2, job0, ids)) :
    job0 = { status := Status.queued, moved := 0, total := ids.length,
             duplicates := 0, startedAt := now, finishedAt := none,
             message := none } ∧
    led2 = (jobId, job0) :: ledger := by
  simp only [startMoveJob] at h
  split at h
  · exact absurd h (by simp)
  · cases hres : resolveCompanyIds storage body with
    | error e =>
      rw [hres] at h
      exact absurd h (by simp)
    | ok ids2 =>
      rw [hres] at h
      simp only [Except.ok.injEq, Prod.mk.injEq] at h
      obtain ⟨hled, hjob, hids⟩ := h
      subst hids
      subst hjob
      exact ⟨rfl, hled.symm⟩

theorem runMoveJob_trace (target : CollectionId) (failAt : Nat → Option String)
    (tFin : Nat) (job0 : Job) (ids : List CompanyId) (storage : Storage) :
    (runMoveJob target failAt tFin job0 ids storage).2 =
      ({ job0 with status := Status.running }, storage) ::
        (runLoop target failAt tFin (chunkList 0 ids) 0
          { job0 with status := Status.running } storage).2 := rfl

theorem runMoveJob_events (target : CollectionId) (failAt : Nat → Option String)
    (tFin : Nat) (job0 : Job) (ids : List CompanyId) (storage : Storage) :
    (runMoveJob target failAt tFin job0 ids storage).1 =
      (runLoop target failAt tFin (chunkList 0 ids) 0
        { job0 with status := Status.running } storage).1 := rfl

/-- C1: for every job created by submission, at every ledger observation point
(creation, the start of execution, and after each per-chunk update, under any
failure behaviour of the writer), moved ≤ total and duplicates ≤ moved; along
the trace moved and duplicates never decrease and total stays fixed at its
creation value. -/
theorem C1_counter_invariants (storage : Storage) (ledger : Ledger)
    (body : StartMoveRequest) (jobId : String) (now tFin : Nat)
    (failAt : Nat → Option String) (led2 : Ledger) (job0 : Job)
    (ids : List CompanyId)
    (h : startMoveJob storage ledger body jobId now = Except.ok (led2, job0, ids)) :
    (∀ j ∈ jobTrace body.targetListId failAt tFin job0 ids storage,
       j.moved ≤ j.total ∧ j.duplicates ≤ j.moved ∧ j.total = job0.total) ∧
    List.Chain' (fun a b => a.moved ≤ b.moved ∧ a.duplicates ≤ b.duplicates)
      (jobTrace body.targetListId failAt tFin job0 ids storage) := by
  obtain ⟨hjob, -⟩ := startMoveJob_ok_inv storage ledger body jobId now led2 job0 ids h
  have hm0 : job0.moved = 0 := by rw [hjob]
  have hd0 : job0.duplicates = 0 := by rw [hjob]
  have ht0 : job0.total = ids.length := by rw [hjob]
  constructor
  · intro j hj
    rw [jobTrace, runMoveJob_trace, List.map_cons, List.mem_cons] at hj
    rcases hj with hj | hj
    · subst hj
      exact ⟨by rw [hm0, ht0]; exact Nat.zero_le _, by simp [hd0, hm0], rfl⟩
    · rw [List.mem_cons] at hj
      rcases hj with hj | hj
      · subst hj
        refine ⟨?_, ?_, rfl⟩
        · show job0.moved ≤ job0.total
          rw [hm0, ht0]
          exact Nat.zero_le _
        · show job0.duplicates ≤ job0.moved
          simp [hd0, hm0]
      · obtain ⟨p, hp, hpj⟩ := List.mem_map.mp hj
        have hinv := runLoop_inv body.targetListId failAt tFin (chunkList 0 ids) 0
          { job0 with status := Status.running } storage
          (by show job0.duplicates ≤ job0.moved; simp [hd0, hm0])
          (by show job0.moved + (chunkList 0 ids).flatten.length ≤ job0.total
              rw [flatten_chunkList_zero, hm0, ht0]
              simp) p hp
        rw [← hpj]
        exact ⟨hinv.1, hinv.2.1, hinv.2.2.1⟩
  · rw [jobTrace, runMoveJob_trace, List.map_cons]
    refine List.chain'_cons.mpr ⟨⟨Nat.le_refl _, Nat.le_refl _⟩, ?_⟩
    exact runLoop_chain body.targetListId failAt tFin (chunkList 0 ids) 0 _ storage

/-- C1 witness: the invariants on the full trace of the job started for
ids [1, 2, 1] (total 2) against empty storage, run without failure. -/
theorem C1_counter_invariants_witness :
    (∀ j ∈ jobTrace 2 noFail 9 ⟨Status.queued, 0, 2, 0, 0, none, none⟩ [1, 2] [],
       j.moved ≤ j.total ∧ j.duplicates ≤ j.moved ∧
       j.total = Job.total ⟨Status.queued, 0, 2, 0, 0, none, none⟩) ∧
    List.Chain' (fun a b => a.moved ≤ b.moved ∧ a.duplicates ≤ b.duplicates)
      (jobTrace 2 noFail 9 ⟨Status.queued, 0, 2, 0, 0, none, none⟩ [1, 2] []) :=
  C1_counter_invariants [] [] ⟨1, 2, ⟨some [1, 2, 1], none, []⟩⟩ "j" 0 9 noFail
    [("j", ⟨Status.queued, 0, 2, 0, 0, none, none⟩)]
    ⟨Status.queued, 0, 2, 0, 0, none, none⟩ [1, 2] rfl

/-- C4: for every job created by submission, at every ledger observation point
finishedAt is set exactly when the status is completed or failed; the trace
decomposes as a run of non-terminal states (finishedAt unset) followed by one
final terminal state, so a terminal snapshot is never followed by another
ledger update. -/
theorem C4_terminal_iff_finishedAt (storage : Storage) (ledger : Ledger)
    (body : StartMoveRequest) (jobId : String) (now tFin : Nat)
    (failAt : Nat → Option String) (led2 : Ledger) (job0 : Job)
    (ids : List CompanyId)
    (h : startMoveJob storage ledger body jobId now = Except.ok (led2, job0, ids)) :
    (∀ j ∈ jobTrace body.targetListId failAt tFin job0 ids storage,
       j.finishedAt.isSome = true ↔
         (j.status = Status.completed ∨ j.status = Status.failed)) ∧
    (∃ front fj, jobTrace body.targetListId failAt tFin job0 ids storage =
        front ++ [fj] ∧
      (∀ j ∈ front, j.finishedAt = none ∧ j.status ≠ Status.completed ∧
        j.status ≠ Status.failed) ∧
      (fj.status = Status.completed ∨ fj.status = Status.failed) ∧
      fj.finishedAt = some tFin) := by
  obtain ⟨hjob, -⟩ := startMoveJob_ok_inv storage ledger body jobId now led2 job0 ids h
  have hq : job0.status = Status.queued := by rw [hjob]
  have hf : job0.finishedAt = none := by rw [hjob]
  have hr : ({ job0 with status := Status.running }).status = Status.running := rfl
  have hrf : ({ job0 with status := Status.running }).finishedAt = none := hf
  obtain ⟨front, fj, heq, hfront, hterm, hfin⟩ :=
    runLoop_terminal body.targetListId failAt tFin (chunkList 0 ids) 0
      { job0 with status := Status.running } storage hr hrf
  constructor
  · intro j hj
    rw [jobTrace, runMoveJob_trace, List.map_cons, List.mem_cons] at hj
    rcases hj with hj | hj
    · subst hj
      simp [hf, hq]
    · rw [List.mem_cons] at hj
      rcases hj with hj | hj
      · subst hj
        simp [hf]
      · rw [heq, List.mem_append] at hj
        rcases hj with hj | hj
        · obtain ⟨hjs, hjf⟩ := hfront j hj
          simp [hjs, hjf]
        · rw [List.mem_singleton] at hj
          subst hj
          simp only [hfin, Option.isSome_some]
          exact ⟨fun _ => hterm, fun _ => trivial⟩
  · refine ⟨job0 :: { job0 with status := Status.running } :: front, fj, ?_, ?_,
      hterm, hfin⟩
    · rw [jobTrace, runMoveJob_trace, List.map_cons, heq]
      simp [List.cons_append]
    · intro j hj
      rw [List.mem_cons] at hj
      rcases hj with hj | hj
      · subst hj
        refine ⟨hf, ?_, ?_⟩ <;> simp [hq]
      · rw [List.mem_cons] at hj
        rcases hj with hj | hj
        · subst hj
          refine ⟨hrf, ?_, ?_⟩ <;> simp [hr]
        · obtain ⟨hjs, hjf⟩ := hfront j hj
          refine ⟨hjf, ?_, ?_⟩ <;> simp [hjs]

/-- C4 witness: the terminal-state biconditional and decomposition for the job
with ids [1, 2] run without failure from empty storage. -/
theorem C4_terminal_iff_finishedAt_witness :
    (∀ j ∈ jobTrace 2 noFail 9 ⟨Status.queued, 0, 2, 0, 0, none, none⟩ [1, 2] [],
       j.finishedAt.isSome = true ↔
         (j.status = Status.completed ∨ j.status = Status.failed)) ∧
    (∃ front fj, jobTrace 2 noFail 9
        ⟨Status.queued, 0, 2, 0, 0, none, none⟩ [1, 2] [] = front ++ [fj] ∧
      (∀ j ∈ front, j.finishedAt = none ∧ j.status ≠ Status.completed ∧
        j.status ≠ Status.failed) ∧
      (fj.status = Status.completed ∨ fj.status = Status.failed) ∧
      fj.finishedAt = some 9) :=
  C4_terminal_iff_finishedAt [] [] ⟨1, 2, ⟨some [1, 2, 1], none, []⟩⟩ "j" 0 9 noFail
    [("j", ⟨Status.queued, 0, 2, 0, 0, none, none⟩)]
    ⟨Status.queued, 0, 2, 0, 0, none, none⟩ [1, 2] rfl

/-- C3: if the writer raises while processing item k (0-based) of the n
resolved items — chunk size is 1 — the job's trace ends in a single failed
state: status = failed, moved = k (the k items before the failure), message
populated with the raised error, finishedAt set; exactly k chunk updates
precede the failure (remaining chunks are never processed), and the final
storage is the in-order commit of only the first k items, which all remain
associated with the target. -/
theorem C3_midstream_failure (storage : Storage) (ledger : Ledger)
    (body : StartMoveRequest) (jobId : String) (now tFin k : Nat) (msg : String)
    (led2 : Ledger) (job0 : Job) (ids : List CompanyId)
    (h : startMoveJob storage ledger body jobId now = Except.ok (led2, job0, ids))
    (hk : k < ids.length) :
    ∃ front fj,
      (runMoveJob body.targetListId (failOnly k msg) tFin job0 ids storage).2 =
        front ++ [(fj, applyChunks body.targetListId storage
          (chunkList 0 (ids.take k)))] ∧
      front.length = k + 1 ∧
      fj.status = Status.failed ∧
      fj.moved = k ∧
      fj.message = some msg ∧
      fj.finishedAt = some tFin ∧
      (∀ cid ∈ ids.take k,
        storageHas (applyChunks body.targetListId storage (chunkList 0 (ids.take k)))
          cid body.targetListId = true) := by
  obtain ⟨hjob, -⟩ := startMoveJob_ok_inv storage ledger body jobId now led2 job0 ids h
  have hclen : (chunkList 0 ids).length = ids.length := by
    rw [chunkList_zero, List.length_map]
  obtain ⟨front, fj, heq, hfl, hst, hmsg, hfin, htot, hsta, hmov⟩ :=
    runLoop_failAt body.targetListId tFin k msg (chunkList 0 ids) 0
      { job0 with status := Status.running } storage (Nat.zero_le k) (by omega)
  have htake : (chunkList 0 ids).take (k - 0) = chunkList 0 (ids.take k) := by
    rw [Nat.sub_zero, chunkList_zero, chunkList_zero, List.map_take]
  rw [htake] at heq hmov
  refine ⟨({ job0 with status := Status.running }, storage) :: front, fj, ?_, ?_,
    hst, ?_, hmsg, hfin, ?_⟩
  · rw [runMoveJob_trace, heq, List.cons_append]
  · simp only [List.length_cons, hfl]
    omega
  · rw [hmov]
    have hm0 : ({ job0 with status := Status.running }).moved = 0 := by rw [hjob]
    rw [hm0, flatten_chunkList_zero, List.length_take]
    omega
  · intro cid hcid
    apply storageHas_applyChunks_mem
    refine ⟨[cid], ?_, List.mem_singleton.mpr rfl⟩
    rw [chunkList_zero]
    exact List.mem_map.mpr ⟨cid, hcid, rfl⟩

/-- C3 witness: writer failure with message "boom" on item index 1 of
ids [1, 2, 3] from empty storage: the run ends failed with moved = 1,
finishedAt set, only item 1 committed. -/
theorem C3_midstream_failure_witness :
    ∃ front fj,
      (runMoveJob 2 (failOnly 1 "boom") 9
        ⟨Status.queued, 0, 3, 0, 0, none, none⟩ [1, 2, 3] []).2 =
        front ++ [(fj, applyChunks 2 [] (chunkList 0 (([1, 2, 3] : List CompanyId).take 1)))] ∧
      front.length = 1 + 1 ∧
      fj.status = Status.failed ∧
      fj.moved = 1 ∧
      fj.message = some "boom" ∧
      fj.finishedAt = some 9 ∧
      (∀ cid ∈ ([1, 2, 3] : List CompanyId).take 1,
        storageHas (applyChunks 2 [] (chunkList 0 (([1, 2, 3] : List CompanyId).take 1)))
          cid 2 = true) :=
  C3_midstream_failure [] [] ⟨1, 2, ⟨some [1, 2, 3], none, []⟩⟩ "j" 0 9 1 "boom"
    [("j", ⟨Status.queued, 0, 3, 0, 0, none, none⟩)]
    ⟨Status.queued, 0, 3, 0, 0, none, none⟩ [1, 2, 3] rfl (by decide)

/-- C8: in a failure-free run the loop handles each chunk by invoking the
writer, then publishing a progress update that adds the chunk length to moved
and (chunk length − inserted count) to duplicates, then suspending once for
the pacing interval SLEEP, before processing the rest; chunks are written
strictly in sequence order with exactly one suspension per chunk, the final
storage is the in-order fold of the writer over the chunks, and the final
counters account for every attempt. -/
theorem C8_batch_runner_accounting (target : CollectionId) (tFin i : Nat)
    (job : Job) (storage : Storage) (chunks : List (List CompanyId))
    (chunk : List CompanyId) (rest : List (List CompanyId)) :
    (runLoop target noFail tFin (chunk :: rest) i job storage).1 =
      RunEvent.writerCall chunk (upsertAssociations storage chunk target).2 ::
      RunEvent.progressUpdate (job.moved + chunk.length)
        (job.duplicates + (chunk.length - (upsertAssociations storage chunk target).2)) ::
      RunEvent.pace SLEEP ::
      (runLoop target noFail tFin rest (i + 1) (runStep target job storage chunk).1
        (upsertAssociations storage chunk target).1).1 ∧
    writtenChunks (runLoop target noFail tFin chunks i job storage).1 = chunks ∧
    paceCount (runLoop target noFail tFin chunks i job storage).1 = chunks.length ∧
    (∃ front fj,
      (runLoop target noFail tFin chunks i job storage).2 =
        front ++ [(fj, applyChunks target storage chunks)] ∧
      fj.moved = job.moved + chunks.flatten.length ∧
      fj.duplicates = job.duplicates + (chunks.flatten.length -
        ((applyChunks target storage chunks).length - storage.length))) := by
  obtain ⟨hw, hp⟩ := runLoop_noFail_events target tFin chunks i job storage
  obtain ⟨front, fj, heq, -, -, -, -, hmov, hdup, -, -⟩ :=
    runLoop_noFail target tFin chunks i job storage
  refine ⟨?_, hw, hp, front, fj, heq, hmov, hdup⟩
  rw [runLoop_cons_ok target noFail tFin chunk rest i job storage rfl]
  rfl

/-- C8 witness: the claim instantiated for chunks [[1], [2]] against storage
already holding (2, target 5): two writer calls in order, two pacing
suspensions, final moved 2 and duplicates 1. -/
theorem C8_batch_runner_accounting_witness :
    (runLoop 5 noFail 9 ([1] :: [[2]]) 0 ⟨Status.running, 0, 2, 0, 0, none, none⟩
        [⟨2, 5⟩]).1 =
      RunEvent.writerCall [1] (upsertAssociations [⟨2, 5⟩] [1] 5).2 ::
      RunEvent.progressUpdate (Job.moved ⟨Status.running, 0, 2, 0, 0, none, none⟩ +
          ([1] : List CompanyId).length)
        (Job.duplicates ⟨Status.running, 0, 2, 0, 0, none, none⟩ +
          (([1] : List CompanyId).length - (upsertAssociations [⟨2, 5⟩] [1] 5).2)) ::
      RunEvent.pace SLEEP ::
      (runLoop 5 noFail 9 [[2]] (0 + 1)
        (runStep 5 ⟨Status.running, 0, 2, 0, 0, none, none⟩ [⟨2, 5⟩] [1]).1
        (upsertAssociations [⟨2, 5⟩] [1] 5).1).1 ∧
    writtenChunks (runLoop 5 noFail 9 [[1], [2]] 0
      ⟨Status.running, 0, 2, 0, 0, none, none⟩ [⟨2, 5⟩]).1 = [[1], [2]] ∧
    paceCount (runLoop 5 noFail 9 [[1], [2]] 0
      ⟨Status.running, 0, 2, 0, 0, none, none⟩ [⟨2, 5⟩]).1 = ([[1], [2]] :
        List (List CompanyId)).length ∧
    (∃ front fj,
      (runLoop 5 noFail 9 [[1], [2]] 0 ⟨Status.running, 0, 2, 0, 0, none, none⟩
          [⟨2, 5⟩]).2 =
        front ++ [(fj, applyChunks 5 [⟨2, 5⟩] [[1], [2]])] ∧
      fj.moved = Job.moved ⟨Status.running, 0, 2, 0, 0, none, none⟩ +
        ([[1], [2]] : List (List CompanyId)).flatten.length ∧
      fj.duplicates = Job.duplicates ⟨Status.running, 0, 2, 0, 0, none, none⟩ +
        (([[1], [2]] : List (List CompanyId)).flatten.length -
          ((applyChunks 5 [⟨2, 5⟩] [[1], [2]]).length - ([⟨2, 5⟩] : Storage).length))) :=
  C8_batch_runner_accounting 5 9 0 ⟨Status.running, 0, 2, 0, 0, none, none⟩
    [⟨2, 5⟩] [[1], [2]] [1] [[2]]
